import Mathlib

/-!
Verification of the on-device inverted-index core (icing lite index and its
file-backed-vector storage primitive) against its specification.

The repository ships the test suites of the components
(`file-backed-vector_test.cc`, the index test file) while the productive
implementation lives outside the shipped sources, so the component behavior is
modelled here from the specification, with every observable pinned down by the
shipped tests reproduced exactly (status codes, checksum constants, iterator
semantics).  All machine integers are modelled as `Nat`/`Int`; CRC32 is the
table-driven reflected CRC-32 (polynomial 0xEDB88320) with zero initial value
and no final xor, which is the variant that reproduces every checksum constant
asserted by the shipped tests (e.g. `Crc32(1134899064)` for content "abcde").
-/

namespace Icing

/-- Decidable equality for `Except` results, used to evaluate concrete
scenarios. -/
instance {ε α : Type} [DecidableEq ε] [DecidableEq α] :
    DecidableEq (Except ε α) := fun a b =>
  match a, b with
  | .ok x, .ok y =>
    if h : x = y then .isTrue (by rw [h]) else
      .isFalse (fun hc => h (Except.ok.inj hc))
  | .error x, .error y =>
    if h : x = y then .isTrue (by rw [h]) else
      .isFalse (fun hc => h (Except.error.inj hc))
  | .ok _, .error _ => .isFalse (fun hc => Except.noConfusion hc)
  | .error _, .ok _ => .isFalse (fun hc => Except.noConfusion hc)

/-- Status codes of `libtextclassifier3::Status` used by the components. -/
inductive St
  | ok
  | invalidArgument
  | notFound
  | outOfRange
  | resourceExhausted
  | dataLoss
  | internalError
deriving DecidableEq, Repr

/-! ## CRC32 (`icing/util/crc32.h`)

Modelled from the spec: the `Crc32` utility's implementation is not among the
shipped sources.  It is the reflected table-driven CRC-32 with zero initial
register and no final xor; all five checksum constants asserted by
`file-backed-vector_test.cc` (0, 1134899064, 1658635950, 31158534, 2620640643)
are reproduced by this definition. -/

/-- One row of the CRC-32 lookup table: eight rounds of the reflected
polynomial 0xEDB88320 step applied to a byte. -/
def crcTableEntry (b : Nat) : Nat :=
  (List.range 8).foldl
    (fun c _ => if c % 2 = 1 then Nat.xor (c / 2) 0xEDB88320 else c / 2) b

/-- Fold one byte into the CRC register. -/
def crc32Step (c b : Nat) : Nat :=
  Nat.xor (crcTableEntry (Nat.land (Nat.xor c b) 255)) (c / 256)

/-- Continue a CRC computation from register `c` over the bytes `bs`
(`Crc32::Append`). -/
def crcUpdate (c : Nat) (bs : List Nat) : Nat := bs.foldl crc32Step c

/-- CRC-32 of a byte string, starting from the zero register. -/
def crc32 (bs : List Nat) : Nat := crcUpdate 0 bs

/-! ## File-backed vector (`icing/file/file-backed-vector.h`)

Modelled from the spec: the `FileBackedVector` implementation is not among the
shipped sources; its observable behavior is fixed by §4.A of the spec and by
`file-backed-vector_test.cc`.  The model keeps the physical mapped bytes
(`buf`, which logical truncation does not erase, as with an mmapped file), the
logical element count (`len`, the header's `num_elements`), the byte string
covered by the most recently cached checksum (`cachedContent`, whose CRC is
the cached checksum value and whose length is the covered region
`changes_end_`), and the offsets modified inside the covered region since the
last checksum (`changes`). -/

structure FileBackedVector where
  /-- Physical mapped bytes; never shrunk by logical truncation. -/
  buf : List Nat
  /-- Logical element count (`num_elements` of the header). -/
  len : Nat
  /-- The byte string covered by the cached checksum. -/
  cachedContent : List Nat
  /-- Offsets below `cachedContent.length` written since the last checksum. -/
  changes : List Nat
deriving DecidableEq, Repr

namespace FileBackedVector

/-- `MAX_ELEMENTS = 2^20` (`kMaxNumElts`). -/
def kMaxNumElts : Nat := 1048576

/-- The vector's current logical content. -/
def content (s : FileBackedVector) : List Nat := s.buf.take s.len

/-- A freshly created, empty vector (new backing file). -/
def emptyVector : FileBackedVector := ⟨[], 0, [], []⟩

/-- Write byte `v` at physical offset `i`, zero-filling newly mapped bytes
(mmap growth maps fresh zero pages). -/
def setByte (buf : List Nat) (i v : Nat) : List Nat :=
  (buf ++ List.replicate (i + 1 - buf.length) 0).set i v

/-- `Set(i, value)`: bounds-checked write that grows the logical length to
cover `i` and records the offset when it falls inside the checksummed
region. -/
def Set (s : FileBackedVector) (i v : Nat) : St × FileBackedVector :=
  if kMaxNumElts ≤ i then (.outOfRange, s)
  else
    (.ok,
      { s with
        buf := setByte s.buf i v
        len := max s.len (i + 1)
        changes :=
          if i < s.cachedContent.length then i :: s.changes else s.changes })

/-- `TruncateTo(new_len)`: shrinks the logical length only; the checksum
cache is deliberately left untouched. -/
def TruncateTo (s : FileBackedVector) (n : Nat) : St × FileBackedVector :=
  if s.len < n then (.outOfRange, s) else (.ok, { s with len := n })

/-- Replay the recorded in-region modifications on top of the previously
checksummed bytes ("subtract old bytes and add new"). -/
def applyFixups (c : List Nat) (live : List Nat) (buf : List Nat) : List Nat :=
  live.foldl (fun acc i => acc.set i (buf.getD i 0)) c

/-- `ComputeChecksum()`: incremental strategy.  If the recorded changes stay
below half of the logical length, the cached checksum is updated by replaying
the changed offsets and appending the tail beyond the covered region
(truncated-away offsets are skipped); otherwise the checksum is recomputed
from scratch over the logical content. -/
def ComputeChecksum (s : FileBackedVector) : Nat × FileBackedVector :=
  if 2 * s.changes.length ≤ s.len then
    (crc32 (applyFixups s.cachedContent (s.changes.filter (fun i => i < s.len)) s.buf ++
        (content s).drop s.cachedContent.length),
      { s with
        cachedContent :=
          applyFixups s.cachedContent (s.changes.filter (fun i => i < s.len)) s.buf ++
            (content s).drop s.cachedContent.length
        changes := s.changes.filter (fun i => s.len ≤ i) })
  else
    (crc32 (content s), { s with cachedContent := content s, changes := [] })

/-- On-disk backing file of a vector: content bytes plus the header's
`vector_checksum` field. -/
structure VectorFile where
  fileContent : List Nat
  header_checksum : Nat

/-- `Create(path, strategy)` on an existing file: validates the header by
recomputing the content checksum.  The shipped test
`FileBackedVectorTest.SimpleShared` pins the status on a checksum mismatch to
`INTERNAL`. -/
def Create (f : VectorFile) : Except St FileBackedVector :=
  if crc32 f.fileContent = f.header_checksum then
    .ok ⟨f.fileContent, f.fileContent.length, f.fileContent, []⟩
  else .error .internalError

/-- One mutating or checksumming operation on a vector. -/
inductive VecOp
  | set (i v : Nat)
  | truncateTo (n : Nat)
  | checksum

/-- Apply one operation (failed operations leave the state unchanged). -/
def applyOp (s : FileBackedVector) : VecOp → FileBackedVector
  | .set i v => (s.Set i v).2
  | .truncateTo n => (s.TruncateTo n).2
  | .checksum => s.ComputeChecksum.2

/-- Apply a sequence of operations. -/
def applyOps (s : FileBackedVector) (ops : List VecOp) : FileBackedVector :=
  ops.foldl applyOp s

/-- Checksum-cache coherence invariant: the covered region and logical length
fit inside the mapped bytes, recorded changes lie inside the covered region,
and unrecorded covered offsets still hold their checksummed byte. -/
def Inv (s : FileBackedVector) : Prop :=
  s.cachedContent.length ≤ s.buf.length ∧ s.len ≤ s.buf.length ∧
  (∀ i ∈ s.changes, i < s.cachedContent.length) ∧
  (∀ i, i < s.cachedContent.length → i ∉ s.changes →
    s.buf.getD i 0 = s.cachedContent.getD i 0)

instance (s : FileBackedVector) : Decidable (Inv s) := by
  unfold Inv
  infer_instance

theorem take_getElem?_eq_if (l : List Nat) (n i : Nat) :
    (l.take n)[i]? = if i < n then l[i]? else none := by
  simp [List.getElem?_take]

theorem applyFixups_length (live cs buf : List Nat) :
    (applyFixups cs live buf).length = cs.length := by
  induction live generalizing cs with
  | nil => rfl
  | cons i live ih =>
    have hstep : applyFixups cs (i :: live) buf =
        applyFixups (cs.set i (buf.getD i 0)) live buf := rfl
    rw [hstep, ih, List.length_set]

theorem applyFixups_getElem? (live cs buf : List Nat) (j : Nat)
    (hlive : ∀ i ∈ live, i < cs.length) :
    (applyFixups cs live buf)[j]? =
      if j ∈ live then some (buf.getD j 0) else cs[j]? := by
  induction live generalizing cs with
  | nil => simp [applyFixups]
  | cons i live ih =>
    have hstep : applyFixups cs (i :: live) buf =
        applyFixups (cs.set i (buf.getD i 0)) live buf := rfl
    rw [hstep, ih _ (by
      intro t ht
      rw [List.length_set]
      exact hlive t (List.mem_cons_of_mem _ ht))]
    by_cases hj : j ∈ live
    · rw [if_pos hj, if_pos (List.mem_cons_of_mem _ hj)]
    · by_cases hji : j = i
      · subst hji
        have hjc : j < cs.length := hlive j (List.mem_cons_self _ _)
        rw [if_neg hj, if_pos (List.mem_cons_self _ _),
          List.getElem?_set_self hjc]
      · rw [if_neg hj, if_neg (by
          intro h
          rcases List.mem_cons.mp h with h | h
          · exact hji h
          · exact hj h),
          List.getElem?_set_ne (fun h => hji h.symm)]

theorem applyFixups_eq_take (cs live buf : List Nat)
    (hlen : cs.length ≤ buf.length)
    (hlive : ∀ i ∈ live, i < cs.length)
    (hagree : ∀ i, i < cs.length → i ∉ live → buf.getD i 0 = cs.getD i 0) :
    applyFixups cs live buf = buf.take cs.length := by
  apply List.ext_getElem?
  intro j
  rw [applyFixups_getElem? live cs buf j hlive, take_getElem?_eq_if]
  by_cases hjc : j < cs.length
  · have hjb : j < buf.length := lt_of_lt_of_le hjc hlen
    have hbuf : buf[j]? = some (buf.getD j 0) := by
      rw [List.getD_eq_getElem _ _ hjb, List.getElem?_eq_getElem hjb]
    by_cases hjl : j ∈ live
    · rw [if_pos hjl, if_pos hjc, hbuf]
    · have hag := hagree j hjc hjl
      have hcs : cs[j]? = some (cs.getD j 0) := by
        rw [List.getD_eq_getElem _ _ hjc, List.getElem?_eq_getElem hjc]
      rw [if_neg hjl, if_pos hjc, hbuf, hcs, hag]
  · have hnone : cs[j]? = none := List.getElem?_eq_none (le_of_not_lt hjc)
    have hnl : j ∉ live := fun h => hjc (hlive j h)
    rw [if_neg hnl, if_neg hjc, hnone]

theorem content_length {s : FileBackedVector} (h : s.len ≤ s.buf.length) :
    s.content.length = s.len := by
  rw [content, List.length_take]
  omega

theorem Inv.checksum_eq {s : FileBackedVector} (hInv : Inv s)
    (hle : s.cachedContent.length ≤ s.len) :
    s.ComputeChecksum.1 = crc32 s.content := by
  obtain ⟨hclen, hlen, hch, hagree⟩ := hInv
  unfold ComputeChecksum
  by_cases hbranch : 2 * s.changes.length ≤ s.len
  · rw [if_pos hbranch]
    have hfix : applyFixups s.cachedContent (s.changes.filter (fun i => i < s.len)) s.buf =
        s.buf.take s.cachedContent.length := by
      apply applyFixups_eq_take _ _ _ hclen
      · intro i hi
        exact hch i (List.mem_of_mem_filter hi)
      · intro i hi hnl
        apply hagree i hi
        intro hmem
        exact hnl (List.mem_filter.mpr ⟨hmem, by simp [lt_of_lt_of_le hi hle]⟩)
    have htake : s.buf.take s.cachedContent.length =
        s.content.take s.cachedContent.length := by
      rw [content, List.take_take, min_eq_left hle]
    simp only [hfix, htake, List.take_append_drop]
  · rw [if_neg hbranch]

theorem setByte_length (buf : List Nat) (i v : Nat) :
    (setByte buf i v).length = max buf.length (i + 1) := by
  rw [setByte, List.length_set, List.length_append, List.length_replicate]
  omega

theorem setByte_getD_ne (buf : List Nat) (i v j : Nat) (hne : j ≠ i)
    (hj : j < buf.length) :
    (setByte buf i v).getD j 0 = buf.getD j 0 := by
  rw [List.getD_eq_getElem?_getD, List.getD_eq_getElem?_getD, setByte,
    List.getElem?_set_ne (fun h => hne h.symm), List.getElem?_append, if_pos hj]

theorem Inv.set {s : FileBackedVector} (hInv : Inv s) (i v : Nat) :
    Inv (s.Set i v).2 := by
  obtain ⟨hclen, hlen, hch, hagree⟩ := hInv
  unfold FileBackedVector.Set
  by_cases hmax : kMaxNumElts ≤ i
  · rw [if_pos hmax]
    exact ⟨hclen, hlen, hch, hagree⟩
  · rw [if_neg hmax]
    refine ⟨?_, ?_, ?_, ?_⟩
    · show s.cachedContent.length ≤ (setByte s.buf i v).length
      rw [setByte_length]
      omega
    · show max s.len (i + 1) ≤ (setByte s.buf i v).length
      rw [setByte_length]
      omega
    · show ∀ j ∈ (if i < s.cachedContent.length then i :: s.changes else s.changes),
        j < s.cachedContent.length
      intro j hj
      by_cases hic : i < s.cachedContent.length
      · rw [if_pos hic] at hj
        rcases List.mem_cons.mp hj with h | h
        · exact h ▸ hic
        · exact hch j h
      · rw [if_neg hic] at hj
        exact hch j hj
    · show ∀ j, j < s.cachedContent.length →
        j ∉ (if i < s.cachedContent.length then i :: s.changes else s.changes) →
        (setByte s.buf i v).getD j 0 = s.cachedContent.getD j 0
      intro j hjc hj
      have hji : j ≠ i := by
        by_cases hic : i < s.cachedContent.length
        · rw [if_pos hic] at hj
          intro h
          exact hj (h ▸ List.mem_cons_self _ _)
        · intro h
          subst h
          exact hic hjc
      have hjmem : j ∉ s.changes := by
        by_cases hic : i < s.cachedContent.length
        · rw [if_pos hic] at hj
          exact fun h => hj (List.mem_cons_of_mem _ h)
        · rwa [if_neg hic] at hj
      rw [setByte_getD_ne _ _ _ _ hji (lt_of_lt_of_le hjc hclen)]
      exact hagree j hjc hjmem

theorem Inv.truncateTo {s : FileBackedVector} (hInv : Inv s) (n : Nat) :
    Inv (s.TruncateTo n).2 := by
  obtain ⟨hclen, hlen, hch, hagree⟩ := hInv
  unfold TruncateTo
  by_cases hn : s.len < n
  · rw [if_pos hn]
    exact ⟨hclen, hlen, hch, hagree⟩
  · rw [if_neg hn]
    exact ⟨hclen, le_trans (le_of_not_lt hn) hlen, hch, hagree⟩

theorem Inv.checksum {s : FileBackedVector} (hInv : Inv s) :
    Inv s.ComputeChecksum.2 := by
  obtain ⟨hclen, hlen, hch, hagree⟩ := hInv
  have hcontentlen : s.content.length = s.len := content_length hlen
  unfold ComputeChecksum
  by_cases hbranch : 2 * s.changes.length ≤ s.len
  · rw [if_pos hbranch]
    have hfixlen : (applyFixups s.cachedContent
        (s.changes.filter (fun i => i < s.len)) s.buf).length =
        s.cachedContent.length := applyFixups_length _ _ _
    have hhashedlen :
        (applyFixups s.cachedContent (s.changes.filter (fun i => i < s.len)) s.buf ++
          s.content.drop s.cachedContent.length).length =
        max s.cachedContent.length s.len := by
      rw [List.length_append, hfixlen, List.length_drop, hcontentlen]
      omega
    refine ⟨?_, ?_, ?_, ?_⟩
    · show (applyFixups s.cachedContent (s.changes.filter (fun i => i < s.len)) s.buf ++
          s.content.drop s.cachedContent.length).length ≤ s.buf.length
      rw [hhashedlen]
      omega
    · exact hlen
    · show ∀ j ∈ s.changes.filter (fun i => s.len ≤ i),
        j < (applyFixups s.cachedContent (s.changes.filter (fun i => i < s.len)) s.buf ++
          s.content.drop s.cachedContent.length).length
      intro j hj
      rw [hhashedlen]
      have := hch j (List.mem_of_mem_filter hj)
      omega
    · show ∀ j, j < (applyFixups s.cachedContent
          (s.changes.filter (fun i => i < s.len)) s.buf ++
          s.content.drop s.cachedContent.length).length →
        j ∉ s.changes.filter (fun i => s.len ≤ i) →
        s.buf.getD j 0 =
          (applyFixups s.cachedContent (s.changes.filter (fun i => i < s.len)) s.buf ++
            s.content.drop s.cachedContent.length).getD j 0
      intro j hjlt hjkept
      rw [hhashedlen] at hjlt
      rw [List.getD_eq_getElem?_getD, List.getD_eq_getElem?_getD,
        List.getElem?_append]
      by_cases hjc : j < s.cachedContent.length
      · rw [if_pos (hfixlen ▸ hjc),
          applyFixups_getElem? _ _ _ _ (fun i hi => hch i (List.mem_of_mem_filter hi))]
        by_cases hjlive : j ∈ s.changes.filter (fun i => i < s.len)
        · rw [if_pos hjlive, List.getD_eq_getElem?_getD]
          rfl
        · rw [if_neg hjlive]
          have hjmem : j ∉ s.changes := by
            intro hmem
            by_cases hjs : j < s.len
            · exact hjlive (List.mem_filter.mpr ⟨hmem, by simp [hjs]⟩)
            · exact hjkept (List.mem_filter.mpr ⟨hmem, by simp [le_of_not_lt hjs]⟩)
          have hag := hagree j hjc hjmem
          rw [List.getD_eq_getElem?_getD, List.getD_eq_getElem?_getD] at hag
          exact hag
      · rw [if_neg (by rw [hfixlen]; exact hjc), hfixlen]
        have hjlen : j < s.len := by omega
        have hdrop : (s.content.drop s.cachedContent.length)[j - s.cachedContent.length]? =
            s.content[j]? := by
          rw [List.getElem?_drop]
          congr 1
          omega
        rw [hdrop, content, take_getElem?_eq_if, if_pos hjlen]
  · rw [if_neg hbranch]
    refine ⟨?_, ?_, ?_, ?_⟩
    · show s.content.length ≤ s.buf.length
      rw [hcontentlen]
      exact hlen
    · exact hlen
    · intro j hj
      cases hj
    · show ∀ j, j < s.content.length → j ∉ ([] : List Nat) →
        s.buf.getD j 0 = s.content.getD j 0
      intro j hjlt _
      rw [hcontentlen] at hjlt
      rw [List.getD_eq_getElem?_getD, List.getD_eq_getElem?_getD, content,
        take_getElem?_eq_if, if_pos hjlt]

theorem inv_applyOp {s : FileBackedVector} (hInv : Inv s) (op : VecOp) :
    Inv (applyOp s op) := by
  cases op with
  | set i v => exact hInv.set i v
  | truncateTo n => exact hInv.truncateTo n
  | checksum => exact hInv.checksum

theorem inv_applyOps {s : FileBackedVector} (hInv : Inv s) (ops : List VecOp) :
    Inv (applyOps s ops) := by
  induction ops generalizing s with
  | nil => exact hInv
  | cons op ops ih => exact ih (inv_applyOp hInv op)

theorem inv_emptyVector : Inv emptyVector := by
  refine ⟨Nat.le_refl _, Nat.le_refl _, ?_, ?_⟩
  · intro i hi
    cases hi
  · intro i hi
    cases hi

theorem inv_create {f : VectorFile} {s : FileBackedVector}
    (h : Create f = .ok s) : Inv s := by
  unfold Create at h
  by_cases hc : crc32 f.fileContent = f.header_checksum
  · rw [if_pos hc] at h
    cases h
    refine ⟨Nat.le_refl _, Nat.le_refl _, ?_, ?_⟩
    · intro i hi
      cases hi
    · intro i _ _
      rfl
  · rw [if_neg hc] at h
    cases h

/-- C1 counterexample: on the file with content "abcde" and header checksum
123 (the recomputed checksum 1134899064 disagrees), `Create` does not fail
with `DATA_LOSS`; it fails with `INTERNAL`, exactly as the shipped test
`FileBackedVectorTest.SimpleShared` requires. -/
theorem create_mismatch_not_dataLoss :
    Create ⟨[97, 98, 99, 100, 101], 123⟩ ≠ .error St.dataLoss ∧
    Create ⟨[97, 98, 99, 100, 101], 123⟩ = .error St.internalError ∧
    crc32 [97, 98, 99, 100, 101] ≠ 123 := by
  refine ⟨?_, ?_, ?_⟩ <;> decide

/-- C1 (amended): for every existing file-backed-vector file whose recomputed
content checksum disagrees with the checksum stored in its header, `Create`
on that file fails with `INTERNAL`. -/
theorem create_mismatch_internal (f : VectorFile)
    (h : crc32 f.fileContent ≠ f.header_checksum) :
    Create f = .error St.internalError := by
  rw [Create, if_neg h]

/-- C1 witness: the amended claim realized on the tampered "abcde" file. -/
theorem create_mismatch_internal_witness :
    crc32 [97, 98, 99, 100, 101] ≠ 123 ∧
    Create ⟨[97, 98, 99, 100, 101], 123⟩ = .error St.internalError :=
  ⟨by decide, create_mismatch_internal _ (by decide)⟩

/-- C2 counterexample: after `Set(0,'A')`, `ComputeChecksum`, `TruncateTo(0)`,
the next `ComputeChecksum` returns the stale value 31158534 (the CRC of "A")
although the logical content is empty and its CRC is 0 — the scenario pinned
by `FileBackedVectorTest.TruncateTo`. -/
theorem computeChecksum_stale_after_truncate :
    (applyOps emptyVector
      [VecOp.set 0 65, VecOp.checksum, VecOp.truncateTo 0]).ComputeChecksum.1 =
        31158534 ∧
    crc32 (applyOps emptyVector
      [VecOp.set 0 65, VecOp.checksum, VecOp.truncateTo 0]).content = 0 ∧
    (31158534 : Nat) ≠ 0 := by
  refine ⟨?_, ?_, ?_⟩ <;> decide

/-- C2 (amended): for every vector reachable by `Set`/`TruncateTo`/
`ComputeChecksum` operations from a coherent starting state, `ComputeChecksum`
returns exactly the CRC32 of the current logical content whenever the current
logical length is at least the length covered by the cached checksum — in
particular whenever no `TruncateTo` has shrunk the vector below the covered
region since the last checksum; a bare truncation immediately before the call
may instead yield the previous, stale checksum. -/
theorem computeChecksum_eq_crc_content {s0 : FileBackedVector}
    (ops : List VecOp) (h0 : Inv s0)
    (hcover : (applyOps s0 ops).cachedContent.length ≤ (applyOps s0 ops).len) :
    (applyOps s0 ops).ComputeChecksum.1 = crc32 (applyOps s0 ops).content :=
  (inv_applyOps h0 ops).checksum_eq hcover

/-- C2 witness: the amended claim realized on the one-byte vector "a". -/
theorem computeChecksum_eq_crc_content_witness :
    Inv emptyVector ∧
    (applyOps emptyVector [VecOp.set 0 97]).cachedContent.length ≤
      (applyOps emptyVector [VecOp.set 0 97]).len ∧
    (applyOps emptyVector [VecOp.set 0 97]).ComputeChecksum.1 =
      crc32 (applyOps emptyVector [VecOp.set 0 97]).content :=
  ⟨by decide, by decide,
    computeChecksum_eq_crc_content [VecOp.set 0 97] (by decide) (by decide)⟩

end FileBackedVector

/-! ## Lite index (`icing/index/index.h` and the lite index behind it)

Modelled from the spec (§3, §4.B–§4.F): the `Index` implementation is not
among the shipped sources; its observable behavior is fixed by the shipped
index test file.  The model keeps the term lexicon (a term's id is its
insertion position), the hit buffer in insertion order (the per-term
back-pointer chains are recovered from it), and `last_added_document_id`.
Where the spec and the shipped tests disagree (exact queries over
prefix-tagged hits, iterator failure codes) the tests decide, since the spec
was written from the code. -/

/-- Terms are opaque UTF-8 byte strings. -/
abbrev Term := List Nat

/-- `TermMatchType`: `exactOnly` is `EXACT_ONLY`, `pfx` is `PREFIX`
(`UNKNOWN` marks unindexed content and never reaches the stored hits). -/
inductive TermMatchType
  | exactOnly
  | pfx
deriving DecidableEq, Repr

/-- A stored hit: `{term_id, document_id, section_id, match_type_flag}`.
The back-pointer chain (`prev_offset`) is recomputed from insertion order
when the buffer is serialized. -/
structure TermHit where
  termId : Nat
  docId : Nat
  sectionId : Nat
  isPrefixHit : Bool
deriving DecidableEq, Repr

/-- In-memory state of the lite index: lexicon (term-id = position), hit
buffer in insertion order, `last_added_document_id` (-1 = INVALID), and the
capacity budgets derived from `index_merge_size`. -/
structure LiteIndex where
  lexicon : List Term
  hits : List TermHit
  lastAdded : Int
  maxTerms : Nat
  maxHits : Nat
deriving DecidableEq, Repr

/-- `DocHitInfo`: merged per-document result record. -/
structure DocHitInfo where
  document_id : Int
  hit_section_ids_mask : Nat
deriving DecidableEq, Repr

/-- `kInvalidDocumentId = -1`. -/
def kInvalidDocumentId : Int := -1

/-- `kSectionIdMaskAll = 0xFFFF`. -/
def kSectionIdMaskAll : Nat := 65535

namespace LiteIndex

/-- Scoped editor bound to one `(document_id, section_id, match_type)`,
carrying the set of terms already added in its lifetime (de-duplication). -/
structure Editor where
  document_id : Nat
  section_id : Nat
  match_type : TermMatchType
  seen : List Term
deriving DecidableEq, Repr

/-- `Edit(document_id, section_id, match_type)`: creates a fresh scoped
editor. -/
def Edit (_ : LiteIndex) (d s : Nat) (mt : TermMatchType) : Editor :=
  ⟨d, s, mt, []⟩

/-- `Lookup(term)`: position of a term in the lexicon. -/
def lookupTerm : List Term → Term → Option Nat
  | [], _ => none
  | t :: ts, q => if t = q then some 0 else (lookupTerm ts q).map (· + 1)

/-- `Editor::AddHit(term)`: de-duplicates within the editor lifetime,
validates the document ordering and section id, inserts the term into the
lexicon when absent, and appends a hit; `RESOURCE_EXHAUSTED` when the lexicon
or the hit buffer is at capacity, leaving the index untouched. -/
def AddHit (i : LiteIndex) (e : Editor) (t : Term) :
    St × LiteIndex × Editor :=
  if t ∈ e.seen then (.ok, i, e)
  else if (e.document_id : Int) < i.lastAdded then (.invalidArgument, i, e)
  else if 16 ≤ e.section_id then (.invalidArgument, i, e)
  else
    match lookupTerm i.lexicon t with
    | some tid =>
      if i.maxHits ≤ i.hits.length then (.resourceExhausted, i, e)
      else
        (.ok,
          { i with
            hits := i.hits ++
              [⟨tid, e.document_id, e.section_id, e.match_type == .pfx⟩]
            lastAdded := (e.document_id : Int) },
          { e with seen := t :: e.seen })
    | none =>
      if i.maxTerms ≤ i.lexicon.length then (.resourceExhausted, i, e)
      else if i.maxHits ≤ i.hits.length then (.resourceExhausted, i, e)
      else
        (.ok,
          { i with
            lexicon := i.lexicon ++ [t]
            hits := i.hits ++
              [⟨i.lexicon.length, e.document_id, e.section_id,
                e.match_type == .pfx⟩]
            lastAdded := (e.document_id : Int) },
          { e with seen := t :: e.seen })

/-- Whether a stored hit answers the query `(q, mt)`: for `EXACT_ONLY` the
hit's term must equal `q` (any stored match type — pinned by
`IndexTest.NonAsciiTerms`); for `PREFIX` the hit's term must start with `q`,
and when it differs from `q` the hit must be prefix-tagged (pinned by
`IndexTest.NoExactHitInPrefixQuery` and `IndexTest.MultiPrefixHit`). -/
def hitQualifies (i : LiteIndex) (q : Term) (mt : TermMatchType)
    (h : TermHit) : Bool :=
  match i.lexicon[h.termId]? with
  | none => false
  | some t =>
    match mt with
    | .exactOnly => t == q
    | .pfx => q.isPrefixOf t && (t == q || h.isPrefixHit)

/-- The section bit contributed by one hit (`1U << section_id`). -/
def hitBit (h : TermHit) : Nat := 1 <<< h.sectionId

/-- Insert a document id into a strictly descending list, dropping
duplicates. -/
def insertDescNoDup (d : Nat) : List Nat → List Nat
  | [] => [d]
  | x :: xs =>
    if x < d then d :: x :: xs
    else if d = x then x :: xs
    else x :: insertDescNoDup d xs

/-- The distinct document ids of a hit list, in strictly descending order
(the merge order of the per-term chain walkers). -/
def candidateDocs (hs : List TermHit) : List Nat :=
  hs.foldr (fun h acc => insertDescNoDup h.docId acc) []

/-- Bitwise OR of the section bits of the hits at one document id. -/
def docSectionMask (hs : List TermHit) (d : Nat) : Nat :=
  hs.foldr (fun h m => if h.docId = d then Nat.lor (hitBit h) m else m) 0

/-- The stream of `DocHitInfo` records produced for a query: qualifying hits
grouped by document id in descending order, section bits OR-ed, AND-ed with
the caller's `section_mask`, documents with an empty restricted mask
skipped. -/
def GetIteratorHits (i : LiteIndex) (q : Term) (mask : Nat)
    (mt : TermMatchType) : List DocHitInfo :=
  (candidateDocs (i.hits.filter (hitQualifies i q mt))).filterMap (fun d =>
    let m := Nat.land (docSectionMask (i.hits.filter (hitQualifies i q mt)) d) mask
    if m = 0 then none else some ⟨(d : Int), m⟩)

/-- Iterator state: pending records, the current `doc_hit_info`, and whether
some `Advance` already succeeded. -/
structure DocHitInfoIterator where
  remaining : List DocHitInfo
  current : DocHitInfo
  advanced : Bool
deriving DecidableEq, Repr

/-- A fresh iterator over a record stream; `doc_hit_info` starts as
`{kInvalidDocumentId, 0}`. -/
def mkIterator (l : List DocHitInfo) : DocHitInfoIterator :=
  ⟨l, ⟨kInvalidDocumentId, 0⟩, false⟩

/-- `GetIterator(query_term, section_mask, match_type)`. -/
def GetIterator (i : LiteIndex) (q : Term) (mask : Nat)
    (mt : TermMatchType) : DocHitInfoIterator :=
  mkIterator (GetIteratorHits i q mask mt)

/-- `Advance()`: yields the next record, or `NOT_FOUND` when the iterator
never produced a record (no matches at all) and `RESOURCE_EXHAUSTED` when a
previously-ok iterator is past the end (pinned by `IndexTest.EmptyIndex` and
`IndexTest.AdvancePastEnd`); a failed advance resets `doc_hit_info` to
`{kInvalidDocumentId, 0}`. -/
def Advance (it : DocHitInfoIterator) : St × DocHitInfoIterator :=
  match it.remaining with
  | d :: rest => (.ok, ⟨rest, d, true⟩)
  | [] =>
    (if it.advanced then .resourceExhausted else .notFound,
      ⟨[], ⟨kInvalidDocumentId, 0⟩, it.advanced⟩)

/-- Collect the records produced by `fuel` successful `Advance` calls
(stopping at the first failure), as the shipped tests' `GetHits` helper
does. -/
def collectAdvances : Nat → DocHitInfoIterator → List DocHitInfo
  | 0, _ => []
  | n + 1, it =>
    match Advance it with
    | (.ok, it') => it'.current :: collectAdvances n it'
    | (_, _) => []

end LiteIndex

/-! ### Persistence (§4.E, §6): serialization of the index files and
`Create` on an existing directory. -/

/-- Little-endian base-256 encoding of `n` on `k` bytes. -/
def toBytesK : Nat → Nat → List Nat
  | 0, _ => []
  | k + 1, n => n % 256 :: toBytesK k (n / 256)

/-- Little-endian base-256 decoding. -/
def fromBytes : List Nat → Nat
  | [] => 0
  | b :: bs => b + 256 * fromBytes bs

/-- Pack one hit into its 64-bit record
(`term_id:22 | document_id:24 | section_id:4 | match_type_flag:1 |
prev_offset:13`), as 8 bytes. -/
def encodeHit (h : TermHit) (prev : Nat) : List Nat :=
  toBytesK 8
    ((((h.termId * 16777216 + h.docId) * 16 + h.sectionId) * 2 +
        (if h.isPrefixHit then 1 else 0)) * 8192 + prev)

/-- Unpack a 64-bit hit record (the `prev_offset` field is consumed by the
chain walker and not part of the in-memory hit). -/
def decodeHit (n : Nat) : TermHit :=
  ⟨n / 4398046511104, n / 262144 % 16777216, n / 16384 % 16,
    n / 8192 % 2 == 1⟩

namespace LiteIndex

/-- Back-pointer distance (in records) to the previous hit of the same term;
0 when none or when the distance overflows the 13-bit field (the overflow
map case of §4.C). -/
def prevDistance (processed : List TermHit) (tid : Nat) : Nat :=
  match processed.findIdx? (fun h => h.termId == tid) with
  | some j => if j + 1 < 8192 then j + 1 else 0
  | none => 0

/-- Serialize the hit buffer, computing each record's back-pointer from the
hits already written (`processed` is in reverse insertion order). -/
def encodeHitsGo : List TermHit → List TermHit → List Nat
  | _, [] => []
  | processed, h :: rest =>
    encodeHit h (prevDistance processed h.termId) ++
      encodeHitsGo (h :: processed) rest

/-- Hit-buffer content bytes (what lives at file offset ≥ 4096 of
`lite.hb`). -/
def encodeHits (hs : List TermHit) : List Nat := encodeHitsGo [] hs

/-- Parse the hit-buffer content back into hits (8 bytes per record). -/
def decodeHits : List Nat → Option (List TermHit)
  | [] => some []
  | b0 :: b1 :: b2 :: b3 :: b4 :: b5 :: b6 :: b7 :: rest =>
    (decodeHits rest).map
      (fun hs => decodeHit (fromBytes [b0, b1, b2, b3, b4, b5, b6, b7]) :: hs)
  | _ => none

/-- Lexicon backing bytes: each term length-prefixed, in id order. -/
def encodeLex (lex : List Term) : List Nat :=
  lex.flatMap (fun t => t.length :: t)

/-- Parse the lexicon bytes back into the term list. -/
def decodeLex : List Nat → Option (List Term)
  | [] => some []
  | n :: rest =>
    if n ≠ 0 ∧ n ≤ rest.length then
      (decodeLex (rest.drop n)).map (fun ts => rest.take n :: ts)
    else none
  termination_by l => l.length
  decreasing_by
    simp only [List.length_cons, List.length_drop]
    omega

/-- `lite.heads`: 1-based hit-buffer offset of the most recent hit of each
term id (0 = NONE). -/
def headOffset (hs : List TermHit) (tid : Nat) : Nat :=
  match hs.reverse.findIdx? (fun h => h.termId == tid) with
  | some j => hs.length - j
  | none => 0

/-- Posting-head table bytes (one 32-bit offset per term id). -/
def encodeHeads (i : LiteIndex) : List Nat :=
  (List.range i.lexicon.length).flatMap
    (fun tid => toBytesK 4 (headOffset i.hits tid))

/-- `last_added_document_id` header field as 4 bytes (INVALID = all-ones). -/
def encodeLastAdded (la : Int) : List Nat :=
  if la < 0 then [255, 255, 255, 255] else toBytesK 4 la.toNat

/-- The bytes covered by the combined checksum: header fields, lexicon
bytes, posting-table bytes, hit-buffer logical content (§4.E). -/
def combinedBytes (i : LiteIndex) : List Nat :=
  encodeLastAdded i.lastAdded ++ encodeLex i.lexicon ++ encodeHeads i ++
    encodeHits i.hits

/-- `Index::ComputeChecksum()`: a deterministic CRC of the persisted
representation. -/
def IdxComputeChecksum (i : LiteIndex) : Nat := crc32 (combinedBytes i)

/-- On-disk image of the index directory `root_dir/idx/`: `lite.hb` content
with its header checksum, `lite.lexicon.*`, `lite.heads`, and the `lite.hdr`
fields. -/
structure Disk where
  hb : List Nat
  hbCrc : Nat
  lexBytes : List Nat
  headsBytes : List Nat
  hdrLastAdded : Int
  combinedCrc : Nat
deriving DecidableEq, Repr

/-- `PersistToDisk()`: flush every subfile and stamp the checksums. -/
def PersistToDisk (i : LiteIndex) : Disk :=
  ⟨encodeHits i.hits, crc32 (encodeHits i.hits), encodeLex i.lexicon,
    encodeHeads i, i.lastAdded, IdxComputeChecksum i⟩

/-- `Index::Create(options, filesystem)` on an existing directory:
a failing filesystem operation surfaces as `INTERNAL` (pinned by
`IndexTest.IndexCreateIOFailure`, where the mock filesystem fails the first
operation); a checksum mismatch in a subfile surfaces as `DATA_LOSS` (pinned
by `IndexTest.IndexCreateCorruptionFailure`); otherwise the state is decoded
back. -/
def CreateIndex (maxTerms maxHits : Nat) (ioFailure : Bool) (d : Disk) :
    Except St LiteIndex :=
  if ioFailure then .error .internalError
  else if crc32 d.hb ≠ d.hbCrc then .error .dataLoss
  else if crc32 (encodeLastAdded d.hdrLastAdded ++ d.lexBytes ++
      d.headsBytes ++ d.hb) ≠ d.combinedCrc then .error .dataLoss
  else
    match decodeLex d.lexBytes, decodeHits d.hb with
    | some lex, some hs => .ok ⟨lex, hs, d.hdrLastAdded, maxTerms, maxHits⟩
    | _, _ => .error .dataLoss

/-- Field bounds under which the index state survives serialization:
hit fields fit their record widths and terms are nonempty byte strings
shorter than the length prefix allows. -/
def WellFormedForPersist (i : LiteIndex) : Prop :=
  (∀ h ∈ i.hits,
    h.termId < 4194304 ∧ h.docId < 16777216 ∧ h.sectionId < 16) ∧
  (∀ t ∈ i.lexicon, t ≠ [] ∧ t.length < 256 ∧ ∀ b ∈ t, b < 256)

instance (i : LiteIndex) : Decidable (WellFormedForPersist i) := by
  unfold WellFormedForPersist
  infer_instance

end LiteIndex

theorem fromBytes_toBytesK (k n : Nat) :
    fromBytes (toBytesK k n) = n % 256 ^ k := by
  induction k generalizing n with
  | zero => simp [toBytesK, fromBytes, Nat.mod_one]
  | succ k ih =>
    rw [toBytesK, fromBytes, ih, pow_succ, mul_comm (256 ^ k) 256, Nat.mod_mul]

namespace LiteIndex

theorem decodeHit_encodeHit (h : TermHit) (prev : Nat)
    (htid : h.termId < 4194304) (hdoc : h.docId < 16777216)
    (hsec : h.sectionId < 16) (hprev : prev < 8192) :
    decodeHit (fromBytes (encodeHit h prev)) = h := by
  obtain ⟨tid, doc, sec, flagB⟩ := h
  simp only at htid hdoc hsec
  rw [encodeHit, fromBytes_toBytesK]
  have h256 : (256 : Nat) ^ 8 = 18446744073709551616 := by norm_num
  rw [h256]
  cases flagB with
  | false =>
    simp only [if_neg Bool.false_ne_true]
    have hv :
        (((tid * 16777216 + doc) * 16 + sec) * 2 + 0) * 8192 + prev <
          18446744073709551616 := by omega
    rw [Nat.mod_eq_of_lt hv]
    simp only [decodeHit, TermHit.mk.injEq]
    refine ⟨by omega, by omega, by omega, ?_⟩
    have hflag :
        ((((tid * 16777216 + doc) * 16 + sec) * 2 + 0) * 8192 + prev) /
          8192 % 2 = 0 := by omega
    rw [hflag]
    decide
  | true =>
    norm_num
    have hv :
        (((tid * 16777216 + doc) * 16 + sec) * 2 + 1) * 8192 + prev <
          18446744073709551616 := by omega
    rw [Nat.mod_eq_of_lt hv]
    simp only [decodeHit, TermHit.mk.injEq]
    refine ⟨by omega, by omega, by omega, ?_⟩
    have hflag :
        ((((tid * 16777216 + doc) * 16 + sec) * 2 + 1) * 8192 + prev) /
          8192 % 2 = 1 := by omega
    rw [hflag]
    decide

theorem decodeHits_bytes8_append (v : Nat) (rest : List Nat) :
    decodeHits (toBytesK 8 v ++ rest) =
      (decodeHits rest).map
        (fun hs => decodeHit (fromBytes (toBytesK 8 v)) :: hs) := rfl

theorem prevDistance_lt (processed : List TermHit) (tid : Nat) :
    prevDistance processed tid < 8192 := by
  unfold prevDistance
  cases processed.findIdx? (fun h => h.termId == tid) with
  | none =>
    dsimp only
    omega
  | some j =>
    dsimp only
    split <;> omega

theorem decodeHits_encodeHitsGo (rest : List TermHit)
    (processed : List TermHit)
    (hwf : ∀ h ∈ rest,
      h.termId < 4194304 ∧ h.docId < 16777216 ∧ h.sectionId < 16) :
    decodeHits (encodeHitsGo processed rest) = some rest := by
  induction rest generalizing processed with
  | nil => rfl
  | cons h rest ih =>
    obtain ⟨h1, h2, h3⟩ := hwf h (List.mem_cons_self _ _)
    rw [encodeHitsGo, encodeHit, decodeHits_bytes8_append,
      ih _ (fun x hx => hwf x (List.mem_cons_of_mem _ hx))]
    rw [← encodeHit]
    rw [decodeHit_encodeHit h _ h1 h2 h3 (prevDistance_lt _ _)]
    rfl

theorem decodeHits_encodeHits (hs : List TermHit)
    (hwf : ∀ h ∈ hs,
      h.termId < 4194304 ∧ h.docId < 16777216 ∧ h.sectionId < 16) :
    decodeHits (encodeHits hs) = some hs :=
  decodeHits_encodeHitsGo hs [] hwf

theorem decodeLex_encodeLex (lex : List Term)
    (hne : ∀ t ∈ lex, t ≠ []) : decodeLex (encodeLex lex) = some lex := by
  induction lex with
  | nil => simp [encodeLex, decodeLex]
  | cons t ts ih =>
    have ht : t ≠ [] := hne t (List.mem_cons_self _ _)
    have hcond : t.length ≠ 0 ∧ t.length ≤ (t ++ encodeLex ts).length := by
      constructor
      · intro hc
        exact ht (List.eq_nil_of_length_eq_zero hc)
      · rw [List.length_append]
        omega
    have hstep : encodeLex (t :: ts) = t.length :: (t ++ encodeLex ts) := by
      simp [encodeLex]
    rw [hstep, decodeLex, if_pos hcond, List.take_left, List.drop_left,
      ih (fun x hx => hne x (List.mem_cons_of_mem _ hx))]
    rfl

/-- A small concrete index (one prefix-tagged hit for "foo" at document 0,
section 2) used to realize hypotheses at concrete inputs. -/
def sampleIndex : LiteIndex :=
  ⟨[[102, 111, 111]], [⟨0, 0, 2, true⟩], 0, 16, 16⟩

/-- C7: persisting an index, closing it, and re-`Create`-ing from the same
directory recovers the exact state: `ComputeChecksum` is unchanged by the
round trip, as are `last_added_document_id` and the hits every query
retrieves. -/
theorem createIndex_roundtrip (i : LiteIndex) (hwf : WellFormedForPersist i) :
    ∃ i₂, CreateIndex i.maxTerms i.maxHits false (PersistToDisk i) = .ok i₂ ∧
      IdxComputeChecksum i₂ = IdxComputeChecksum i ∧
      i₂.lastAdded = i.lastAdded ∧
      ∀ q mask mt, GetIteratorHits i₂ q mask mt = GetIteratorHits i q mask mt := by
  obtain ⟨hwfh, hwft⟩ := hwf
  refine ⟨i, ?_, rfl, rfl, fun _ _ _ => rfl⟩
  unfold CreateIndex PersistToDisk
  dsimp only
  rw [if_neg Bool.false_ne_true,
    if_neg (fun hc => hc rfl),
    if_neg (show ¬ (crc32 (encodeLastAdded i.lastAdded ++ encodeLex i.lexicon ++
        encodeHeads i ++ encodeHits i.hits) ≠ IdxComputeChecksum i) from
      fun hc => hc rfl),
    decodeLex_encodeLex _ (fun t ht => (hwft t ht).1),
    decodeHits_encodeHits _ hwfh]

set_option maxRecDepth 16384 in
/-- C7 witness: the round trip realized on `sampleIndex`. -/
theorem createIndex_roundtrip_witness :
    WellFormedForPersist sampleIndex ∧
    ∃ i₂, CreateIndex sampleIndex.maxTerms sampleIndex.maxHits false
        (PersistToDisk sampleIndex) = .ok i₂ ∧
      IdxComputeChecksum i₂ = IdxComputeChecksum sampleIndex ∧
      i₂.lastAdded = sampleIndex.lastAdded ∧
      ∀ q mask mt, GetIteratorHits i₂ q mask mt =
        GetIteratorHits sampleIndex q mask mt :=
  ⟨by decide, createIndex_roundtrip sampleIndex (by decide)⟩

/-- C4: `Index::Create` fails with `DATA_LOSS` whenever the persisted
hit-buffer content (the bytes at file offset ≥ 4096 of `lite.hb`) no longer
matches the stored checksum — in particular after any overwrite that changes
the content CRC — and fails with `INTERNAL`, never `DATA_LOSS`, when a
filesystem operation fails during opening. -/
theorem createIndex_tamper_dataLoss_io_internal :
    (∀ maxT maxH (i : LiteIndex) (hb2 : List Nat),
      crc32 hb2 ≠ (PersistToDisk i).hbCrc →
      CreateIndex maxT maxH false { PersistToDisk i with hb := hb2 } =
        .error St.dataLoss) ∧
    (∀ maxT maxH (d : Disk),
      CreateIndex maxT maxH true d = .error St.internalError ∧
      CreateIndex maxT maxH true d ≠ .error St.dataLoss) := by
  constructor
  · intro maxT maxH i hb2 hcrc
    unfold CreateIndex
    dsimp only
    rw [if_neg Bool.false_ne_true, if_pos hcrc]
  · intro maxT maxH d
    refine ⟨?_, ?_⟩
    · unfold CreateIndex
      rw [if_pos rfl]
    · unfold CreateIndex
      rw [if_pos rfl]
      intro hc
      exact St.noConfusion (Except.error.inj hc)

set_option maxRecDepth 16384 in
/-- C4 witness: a concrete overwrite of the hit-buffer content is rejected
with `DATA_LOSS`, and a failing filesystem is rejected with `INTERNAL`. -/
theorem createIndex_tamper_dataLoss_witness :
    crc32 [102, 102] ≠ (PersistToDisk sampleIndex).hbCrc ∧
    CreateIndex 16 16 false { PersistToDisk sampleIndex with hb := [102, 102] } =
      .error St.dataLoss ∧
    CreateIndex 16 16 true (PersistToDisk sampleIndex) =
      .error St.internalError :=
  ⟨by decide,
    createIndex_tamper_dataLoss_io_internal.1 16 16 sampleIndex [102, 102]
      (by decide),
    (createIndex_tamper_dataLoss_io_internal.2 16 16 (PersistToDisk sampleIndex)).1⟩

theorem nat_lor_eq_or (a b : Nat) : Nat.lor a b = a ||| b := rfl

theorem nat_land_eq_and (a b : Nat) : Nat.land a b = a &&& b := rfl

theorem lor_eq_zero (a b : Nat) : Nat.lor a b = 0 ↔ a = 0 ∧ b = 0 := by
  constructor
  · intro h
    have hbits : ∀ j, a.testBit j = false ∧ b.testBit j = false := by
      intro j
      have hj := congrArg (fun n => Nat.testBit n j) h
      simp only [nat_lor_eq_or, Nat.testBit_lor, Nat.zero_testBit] at hj
      exact Bool.or_eq_false_iff.mp hj
    constructor
    · exact Nat.eq_of_testBit_eq
        (fun j => by rw [(hbits j).1, Nat.zero_testBit])
    · exact Nat.eq_of_testBit_eq
        (fun j => by rw [(hbits j).2, Nat.zero_testBit])
  · rintro ⟨ha, hb⟩
    subst ha
    subst hb
    rfl

theorem land_lor_distrib (a b m : Nat) :
    Nat.land (Nat.lor a b) m = Nat.lor (Nat.land a m) (Nat.land b m) := by
  apply Nat.eq_of_testBit_eq
  intro j
  simp only [nat_lor_eq_or, nat_land_eq_and, Nat.testBit_land, Nat.testBit_lor]
  cases a.testBit j <;> cases b.testBit j <;> cases m.testBit j <;> rfl

theorem mem_insertDescNoDup (d a : Nat) (l : List Nat) :
    a ∈ insertDescNoDup d l ↔ a = d ∨ a ∈ l := by
  induction l with
  | nil => simp [insertDescNoDup]
  | cons x xs ih =>
    unfold insertDescNoDup
    by_cases h1 : x < d
    · rw [if_pos h1]
      simp [List.mem_cons]
    · rw [if_neg h1]
      by_cases h2 : d = x
      · subst h2
        rw [if_pos rfl]
        simp [List.mem_cons]
      · rw [if_neg h2]
        simp only [List.mem_cons, ih]
        tauto

theorem pairwise_insertDescNoDup (d : Nat) (l : List Nat)
    (hl : l.Pairwise (fun a b => b < a)) :
    (insertDescNoDup d l).Pairwise (fun a b => b < a) := by
  induction l with
  | nil => simp [insertDescNoDup]
  | cons x xs ih =>
    rw [List.pairwise_cons] at hl
    obtain ⟨hx, hxs⟩ := hl
    unfold insertDescNoDup
    by_cases h1 : x < d
    · rw [if_pos h1]
      refine List.Pairwise.cons ?_ (List.Pairwise.cons hx hxs)
      intro b hb
      rcases List.mem_cons.mp hb with hb | hb
      · omega
      · have := hx b hb
        omega
    · rw [if_neg h1]
      by_cases h2 : d = x
      · rw [if_pos h2]
        exact List.Pairwise.cons hx hxs
      · rw [if_neg h2]
        refine List.Pairwise.cons ?_ (ih hxs)
        intro b hb
        rcases (mem_insertDescNoDup d b xs).mp hb with hb | hb
        · omega
        · exact hx b hb

theorem mem_candidateDocs (hs : List TermHit) (d : Nat) :
    d ∈ candidateDocs hs ↔ ∃ h ∈ hs, h.docId = d := by
  induction hs with
  | nil => simp [candidateDocs]
  | cons h hs ih =>
    simp only [candidateDocs, List.foldr_cons] at ih ⊢
    rw [mem_insertDescNoDup]
    simp only [List.mem_cons, ih]
    constructor
    · rintro (hd | ⟨x, hx, hxd⟩)
      · exact ⟨h, Or.inl rfl, hd.symm⟩
      · exact ⟨x, Or.inr hx, hxd⟩
    · rintro ⟨x, hx | hx, hxd⟩
      · subst hx
        exact Or.inl hxd.symm
      · exact Or.inr ⟨x, hx, hxd⟩

theorem pairwise_candidateDocs (hs : List TermHit) :
    (candidateDocs hs).Pairwise (fun a b => b < a) := by
  induction hs with
  | nil => simp [candidateDocs]
  | cons h hs ih => exact pairwise_insertDescNoDup _ _ ih

theorem docSectionMask_land_ne (hs : List TermHit) (d mask : Nat) :
    Nat.land (docSectionMask hs d) mask ≠ 0 ↔
      ∃ h ∈ hs, h.docId = d ∧ Nat.land (hitBit h) mask ≠ 0 := by
  induction hs with
  | nil =>
    simp only [docSectionMask, List.foldr_nil]
    constructor
    · intro hc
      exact absurd (Nat.zero_and mask) hc
    · rintro ⟨h, hh, _⟩
      cases hh
  | cons h hs ih =>
    simp only [docSectionMask, List.foldr_cons] at ih ⊢
    by_cases hd : h.docId = d
    · rw [if_pos hd, land_lor_distrib, Ne, lor_eq_zero, not_and_or]
      constructor
      · rintro (hbit | hrest)
        · exact ⟨h, List.mem_cons_self _ _, hd, hbit⟩
        · obtain ⟨x, hx, hxd, hxbit⟩ := ih.mp hrest
          exact ⟨x, List.mem_cons_of_mem _ hx, hxd, hxbit⟩
      · rintro ⟨x, hx, hxd, hxbit⟩
        rcases List.mem_cons.mp hx with hx | hx
        · subst hx
          exact Or.inl hxbit
        · exact Or.inr (ih.mpr ⟨x, hx, hxd, hxbit⟩)
    · rw [if_neg hd, ih]
      constructor
      · rintro ⟨x, hx, hxd, hxbit⟩
        exact ⟨x, List.mem_cons_of_mem _ hx, hxd, hxbit⟩
      · rintro ⟨x, hx, hxd, hxbit⟩
        rcases List.mem_cons.mp hx with hx | hx
        · subst hx
          exact absurd hxd hd
        · exact ⟨x, hx, hxd, hxbit⟩

theorem mem_getIteratorHits_docs (i : LiteIndex) (q : Term) (mask : Nat)
    (mt : TermMatchType) (d : Nat) :
    (d : Int) ∈ (GetIteratorHits i q mask mt).map DocHitInfo.document_id ↔
      ∃ h ∈ i.hits, hitQualifies i q mt h = true ∧ h.docId = d ∧
        Nat.land (hitBit h) mask ≠ 0 := by
  unfold GetIteratorHits
  rw [List.mem_map]
  constructor
  · rintro ⟨info, hinfo, hdoc⟩
    rw [List.mem_filterMap] at hinfo
    obtain ⟨d2, hd2, hf⟩ := hinfo
    by_cases hm : Nat.land
        (docSectionMask (i.hits.filter (hitQualifies i q mt)) d2) mask = 0
    · rw [if_pos hm] at hf
      cases hf
    · rw [if_neg hm] at hf
      cases hf
      have hdd : d2 = d := by
        have h2 : (d2 : Int) = (d : Int) := hdoc
        exact_mod_cast h2
      subst hdd
      obtain ⟨h, hh, hhd, hbit⟩ := (docSectionMask_land_ne _ _ _).mp hm
      rw [List.mem_filter] at hh
      exact ⟨h, hh.1, hh.2, hhd, hbit⟩
  · rintro ⟨h, hh, hq, hhd, hbit⟩
    have hfilter : h ∈ i.hits.filter (hitQualifies i q mt) :=
      List.mem_filter.mpr ⟨hh, hq⟩
    have hmem : d ∈ candidateDocs (i.hits.filter (hitQualifies i q mt)) :=
      (mem_candidateDocs _ _).mpr ⟨h, hfilter, hhd⟩
    have hm : Nat.land
        (docSectionMask (i.hits.filter (hitQualifies i q mt)) d) mask ≠ 0 :=
      (docSectionMask_land_ne _ _ _).mpr ⟨h, hfilter, hhd, hbit⟩
    refine ⟨⟨(d : Int),
      Nat.land (docSectionMask (i.hits.filter (hitQualifies i q mt)) d) mask⟩,
      ?_, rfl⟩
    rw [List.mem_filterMap]
    exact ⟨d, hmem, by rw [if_neg hm]⟩

theorem hitQualifies_exact_iff (i : LiteIndex) (q : Term) (h : TermHit) :
    hitQualifies i q .exactOnly h = true ↔ i.lexicon[h.termId]? = some q := by
  unfold hitQualifies
  cases hl : i.lexicon[h.termId]? with
  | none => simp
  | some t => simp [beq_iff_eq]

theorem hitQualifies_pfx_iff (i : LiteIndex) (q : Term) (h : TermHit) :
    hitQualifies i q .pfx h = true ↔
      ∃ t, i.lexicon[h.termId]? = some t ∧ q.isPrefixOf t = true ∧
        (t = q ∨ h.isPrefixHit = true) := by
  unfold hitQualifies
  cases hl : i.lexicon[h.termId]? with
  | none => simp
  | some t =>
    simp only [Bool.and_eq_true, Bool.or_eq_true, beq_iff_eq,
      Option.some.injEq]
    constructor
    · rintro ⟨hpre, hor⟩
      exact ⟨t, rfl, hpre, hor⟩
    · rintro ⟨t2, ht2, hpre, hor⟩
      subst ht2
      exact ⟨hpre, hor⟩

/-- C3 counterexample: on the index holding a single *prefix-tagged* hit for
"foo" (document 0, section 2), the `EXACT_ONLY` query for "foo" does return
document 0, although the document has no exact-tagged hit — the behavior
pinned by `IndexTest.NonAsciiTerms` (a `PREFIX`-stored hit is returned by an
exact query). -/
theorem exact_query_returns_prefix_tagged :
    GetIteratorHits sampleIndex [102, 111, 111] kSectionIdMaskAll
      .exactOnly = [⟨0, 4⟩] ∧
    ∀ h ∈ sampleIndex.hits, h.isPrefixHit = true := by
  refine ⟨?_, ?_⟩ <;> decide

/-- C3 (amended): an `EXACT_ONLY` query on `q` returns a document iff it has
a hit (of either match type) whose term is `q` itself with a section bit in
the mask; a `PREFIX` query on `q` returns a document iff some stored term `t`
starting with `q` has a hit in it with a section bit in the mask, where the
hit qualifies when `t = q` (any match type) or `t ≠ q` and the hit is
prefix-tagged. -/
theorem query_match_type_discipline (i : LiteIndex) (q : Term) (mask : Nat)
    (d : Nat) :
    ((d : Int) ∈ (GetIteratorHits i q mask .exactOnly).map
        DocHitInfo.document_id ↔
      ∃ h ∈ i.hits, i.lexicon[h.termId]? = some q ∧ h.docId = d ∧
        Nat.land (hitBit h) mask ≠ 0) ∧
    ((d : Int) ∈ (GetIteratorHits i q mask .pfx).map DocHitInfo.document_id ↔
      ∃ h ∈ i.hits,
        (∃ t, i.lexicon[h.termId]? = some t ∧ q.isPrefixOf t = true ∧
          (t = q ∨ h.isPrefixHit = true)) ∧
        h.docId = d ∧ Nat.land (hitBit h) mask ≠ 0) := by
  constructor
  · rw [mem_getIteratorHits_docs]
    constructor
    · rintro ⟨h, hh, hq, hd, hbit⟩
      exact ⟨h, hh, (hitQualifies_exact_iff i q h).mp hq, hd, hbit⟩
    · rintro ⟨h, hh, hq, hd, hbit⟩
      exact ⟨h, hh, (hitQualifies_exact_iff i q h).mpr hq, hd, hbit⟩
  · rw [mem_getIteratorHits_docs]
    constructor
    · rintro ⟨h, hh, hq, hd, hbit⟩
      exact ⟨h, hh, (hitQualifies_pfx_iff i q h).mp hq, hd, hbit⟩
    · rintro ⟨h, hh, hq, hd, hbit⟩
      exact ⟨h, hh, (hitQualifies_pfx_iff i q h).mpr hq, hd, hbit⟩

theorem pairwise_filterMap_doc (l : List Nat) (f : Nat → Option DocHitInfo)
    (hf : ∀ d info, f d = some info → info.document_id = (d : Int))
    (hl : l.Pairwise (fun a b => b < a)) :
    (l.filterMap f).Pairwise
      (fun a b => b.document_id < a.document_id) := by
  induction l with
  | nil => simp
  | cons x xs ih =>
    rw [List.pairwise_cons] at hl
    obtain ⟨hx, hxs⟩ := hl
    rw [List.filterMap_cons]
    cases hfx : f x with
    | none => exact ih hxs
    | some info =>
      refine List.Pairwise.cons ?_ (ih hxs)
      intro b hb
      rw [List.mem_filterMap] at hb
      obtain ⟨d, hd, hfd⟩ := hb
      rw [hf d b hfd, hf x info hfx]
      exact_mod_cast hx d hd

theorem collectAdvances_run (l : List DocHitInfo) (cur : DocHitInfo)
    (adv : Bool) : collectAdvances l.length ⟨l, cur, adv⟩ = l := by
  induction l generalizing cur adv with
  | nil => rfl
  | cons d rest ih =>
    simp only [List.length_cons, collectAdvances, Advance]
    exact congrArg (d :: ·) (ih d true)

/-- C8: the records a query iterator yields through successive successful
`Advance` calls are exactly the query's result stream, and their document
ids are strictly decreasing. -/
theorem advance_descending_doc_order (i : LiteIndex) (q : Term) (mask : Nat)
    (mt : TermMatchType) :
    collectAdvances (GetIteratorHits i q mask mt).length
        (GetIterator i q mask mt) = GetIteratorHits i q mask mt ∧
    (GetIteratorHits i q mask mt).Pairwise
      (fun a b => b.document_id < a.document_id) := by
  constructor
  · exact collectAdvances_run _ _ _
  · unfold GetIteratorHits
    apply pairwise_filterMap_doc
    · intro d info hf
      by_cases hm : Nat.land
          (docSectionMask (i.hits.filter (hitQualifies i q mt)) d) mask = 0
      · rw [if_pos hm] at hf
        cases hf
      · rw [if_neg hm] at hf
        cases hf
        rfl
    · exact pairwise_candidateDocs _

theorem land_land_compl16 (a mask : Nat) :
    Nat.land (Nat.land a mask) (Nat.xor 65535 (Nat.land mask 65535)) = 0 := by
  apply Nat.eq_of_testBit_eq
  intro j
  rw [Nat.zero_testBit,
    show Nat.land (Nat.land a mask) (Nat.xor 65535 (Nat.land mask 65535)) =
      (a &&& mask) &&& (65535 ^^^ (mask &&& 65535)) from rfl,
    Nat.testBit_land, Nat.testBit_land, Nat.testBit_xor, Nat.testBit_land,
    show Nat.testBit 65535 j = decide (j < 16) from by
      rw [show (65535 : Nat) = 2 ^ 16 - 1 from by norm_num,
        Nat.testBit_two_pow_sub_one]]
  by_cases hj : j < 16
  · rw [decide_eq_true hj]
    cases a.testBit j <;> cases mask.testBit j <;> rfl
  · rw [decide_eq_false hj]
    cases a.testBit j <;> cases mask.testBit j <;> rfl

/-- C9: every `DocHitInfo` a query returns has its section mask contained in
the caller's `section_mask` (`returned.mask & ~section_mask == 0` on the
16-bit mask domain), and a document all of whose qualifying hits lie outside
`section_mask` is not returned at all. -/
theorem section_mask_restriction :
    (∀ (i : LiteIndex) (q : Term) (mask : Nat) (mt : TermMatchType) info,
      info ∈ GetIteratorHits i q mask mt →
      Nat.land info.hit_section_ids_mask
        (Nat.xor 65535 (Nat.land mask 65535)) = 0) ∧
    (∀ (i : LiteIndex) (q : Term) (mask : Nat) (mt : TermMatchType) (d : Nat),
      (∀ h ∈ i.hits, hitQualifies i q mt h = true → h.docId = d →
        Nat.land (hitBit h) mask = 0) →
      (d : Int) ∉ (GetIteratorHits i q mask mt).map DocHitInfo.document_id) := by
  constructor
  · intro i q mask mt info hinfo
    unfold GetIteratorHits at hinfo
    rw [List.mem_filterMap] at hinfo
    obtain ⟨d, _, hf⟩ := hinfo
    by_cases hm : Nat.land
        (docSectionMask (i.hits.filter (hitQualifies i q mt)) d) mask = 0
    · rw [if_pos hm] at hf
      cases hf
    · rw [if_neg hm] at hf
      cases hf
      exact land_land_compl16 _ _
  · intro i q mask mt d hout hmem
    obtain ⟨h, hh, hq, hd, hbit⟩ := (mem_getIteratorHits_docs i q mask mt d).mp hmem
    exact hbit (hout h hh hq hd)

/-- C9 witness: the restriction realized on `sampleIndex` with mask `1<<2`
(the returned record) and on the absent document 5. -/
theorem section_mask_restriction_witness :
    (⟨0, 4⟩ : DocHitInfo) ∈
      GetIteratorHits sampleIndex [102, 111, 111] 4 .exactOnly ∧
    Nat.land (4 : Nat) (Nat.xor 65535 (Nat.land 4 65535)) = 0 ∧
    (∀ h ∈ sampleIndex.hits,
      hitQualifies sampleIndex [102, 111, 111] .exactOnly h = true →
      h.docId = 5 → Nat.land (hitBit h) 4 = 0) ∧
    (5 : Int) ∉ (GetIteratorHits sampleIndex [102, 111, 111] 4
      .exactOnly).map DocHitInfo.document_id :=
  ⟨by decide,
    section_mask_restriction.1 sampleIndex [102, 111, 111] 4 .exactOnly
      ⟨0, 4⟩ (by decide),
    by decide,
    section_mask_restriction.2 sampleIndex [102, 111, 111] 4 .exactOnly 5
      (by decide)⟩

/-- C5 counterexample: on the iterator over the single-hit query result for
"foo" on `sampleIndex`, the first `Advance` succeeds and the next one — the
first call that does not succeed — returns `RESOURCE_EXHAUSTED`, not
`NOT_FOUND` (the behavior pinned by `IndexTest.AdvancePastEnd`). -/
theorem advance_first_failure_not_notFound :
    (Advance (GetIterator sampleIndex [102, 111, 111] kSectionIdMaskAll
      .exactOnly)).1 = St.ok ∧
    (Advance (Advance (GetIterator sampleIndex [102, 111, 111]
      kSectionIdMaskAll .exactOnly)).2).1 = St.resourceExhausted ∧
    St.resourceExhausted ≠ St.notFound := by
  refine ⟨?_, ?_, ?_⟩ <;> decide

/-- C5 (amended): an `Advance` that does not succeed returns `NOT_FOUND`
when no earlier `Advance` succeeded (the iterator has no matches at all) and
`RESOURCE_EXHAUSTED` when one did; the failure repeats on further calls, and
after any failed `Advance` the iterator's `doc_hit_info` is
`{kInvalidDocumentId, 0}`. -/
theorem advance_failure_semantics (it : DocHitInfoIterator)
    (hfail : (Advance it).1 ≠ St.ok) :
    (Advance it).1 =
      (if it.advanced then St.resourceExhausted else St.notFound) ∧
    (Advance it).2.current = ⟨kInvalidDocumentId, 0⟩ ∧
    (Advance (Advance it).2).1 = (Advance it).1 := by
  cases hr : it.remaining with
  | cons d rest =>
    exfalso
    apply hfail
    unfold Advance
    rw [hr]
  | nil =>
    unfold Advance
    rw [hr]
    exact ⟨rfl, rfl, rfl⟩

/-- C5 witness: the failure semantics realized on an empty iterator. -/
theorem advance_failure_semantics_witness :
    (Advance (mkIterator [])).1 ≠ St.ok ∧
    (Advance (mkIterator [])).1 =
      (if (mkIterator []).advanced then St.resourceExhausted
        else St.notFound) ∧
    (Advance (mkIterator [])).2.current = ⟨kInvalidDocumentId, 0⟩ ∧
    (Advance (Advance (mkIterator [])).2).1 = (Advance (mkIterator [])).1 :=
  ⟨by decide,
    (advance_failure_semantics (mkIterator []) (by decide)).1,
    (advance_failure_semantics (mkIterator []) (by decide)).2.1,
    (advance_failure_semantics (mkIterator []) (by decide)).2.2⟩

/-- One read-only operation of a query session: issue a query (keeping the
returned iterator) or advance one of the live iterators. -/
inductive QueryOp
  | query (q : Term) (mask : Nat) (mt : TermMatchType)
  | advanceIter (k : Nat)

/-- An index together with the iterators created on it. -/
structure QuerySession where
  idx : LiteIndex
  iters : List DocHitInfoIterator

/-- Apply one read-only operation. -/
def stepQuery (s : QuerySession) : QueryOp → QuerySession
  | .query q mask mt => ⟨s.idx, s.iters ++ [GetIterator s.idx q mask mt]⟩
  | .advanceIter k =>
    ⟨s.idx, s.iters.set k (Advance (s.iters.getD k (mkIterator []))).2⟩

/-- Apply a sequence of read-only operations. -/
def runQueries (s : QuerySession) (ops : List QueryOp) : QuerySession :=
  ops.foldl stepQuery s

/-- C10: `GetIterator` and `Advance` never modify the index — after any
sequence of queries and iterator advances, `last_added_document_id`, the
stored hits, and the whole index state are exactly what they were before. -/
theorem queries_do_not_modify_index (s : QuerySession) (ops : List QueryOp) :
    (runQueries s ops).idx.hits = s.idx.hits ∧
    (runQueries s ops).idx.lastAdded = s.idx.lastAdded ∧
    (runQueries s ops).idx = s.idx := by
  have h : (runQueries s ops).idx = s.idx := by
    induction ops generalizing s with
    | nil => rfl
    | cons op ops ih =>
      have hstep : (stepQuery s op).idx = s.idx := by
        cases op <;> rfl
      calc (runQueries s (op :: ops)).idx
          = (runQueries (stepQuery s op) ops).idx := rfl
        _ = (stepQuery s op).idx := ih (stepQuery s op)
        _ = s.idx := hstep
  exact ⟨by rw [h], by rw [h], h⟩

/-- A term has at least one stored hit in the index. -/
def hasTermHit (i : LiteIndex) (t : Term) : Prop :=
  ∃ h ∈ i.hits, i.lexicon[h.termId]? = some t

instance (i : LiteIndex) (t : Term) : Decidable (hasTermHit i t) := by
  unfold hasTermHit
  infer_instance

/-- Every stored hit carries a valid section id (`AddHit` validates the
editor's section before appending). -/
def SectionsOk (i : LiteIndex) : Prop := ∀ h ∈ i.hits, h.sectionId < 16

instance (i : LiteIndex) : Decidable (SectionsOk i) := by
  unfold SectionsOk
  infer_instance

/-- Every term in an editor's de-duplication set already has a hit in the
index (true of any editor the index handed out). -/
def EditorSeenOk (i : LiteIndex) (e : Editor) : Prop :=
  ∀ t ∈ e.seen, hasTermHit i t

theorem lookupTerm_some (lex : List Term) (t : Term) :
    ∀ k, lookupTerm lex t = some k → lex[k]? = some t := by
  induction lex with
  | nil =>
    intro k h
    cases h
  | cons x xs ih =>
    intro k h
    unfold lookupTerm at h
    by_cases hx : x = t
    · rw [if_pos hx] at h
      cases h
      subst hx
      simp
    · rw [if_neg hx] at h
      cases ho : lookupTerm xs t with
      | none =>
        rw [ho] at h
        cases h
      | some j =>
        rw [ho] at h
        simp only [Option.map_some'] at h
        cases h
        simpa using ih j ho

theorem addHit_spec (i : LiteIndex) (e : Editor) (t : Term) :
    ((AddHit i e t).1 ≠ St.ok ∧ AddHit i e t = ((AddHit i e t).1, i, e)) ∨
    (t ∈ e.seen ∧ AddHit i e t = (St.ok, i, e)) ∨
    (e.section_id < 16 ∧ ∃ tid, lookupTerm i.lexicon t = some tid ∧
      AddHit i e t = (St.ok,
        { i with
          hits := i.hits ++
            [⟨tid, e.document_id, e.section_id, e.match_type == .pfx⟩]
          lastAdded := (e.document_id : Int) },
        { e with seen := t :: e.seen })) ∨
    (e.section_id < 16 ∧ lookupTerm i.lexicon t = none ∧
      AddHit i e t = (St.ok,
        { i with
          lexicon := i.lexicon ++ [t]
          hits := i.hits ++
            [⟨i.lexicon.length, e.document_id, e.section_id,
              e.match_type == .pfx⟩]
          lastAdded := (e.document_id : Int) },
        { e with seen := t :: e.seen })) := by
  unfold AddHit
  by_cases h1 : t ∈ e.seen
  · rw [if_pos h1]
    exact Or.inr (Or.inl ⟨h1, rfl⟩)
  · rw [if_neg h1]
    by_cases h2 : (e.document_id : Int) < i.lastAdded
    · rw [if_pos h2]
      exact Or.inl ⟨fun hc => St.noConfusion hc, rfl⟩
    · rw [if_neg h2]
      by_cases h3 : 16 ≤ e.section_id
      · rw [if_pos h3]
        exact Or.inl ⟨fun hc => St.noConfusion hc, rfl⟩
      · rw [if_neg h3]
        have hsec : e.section_id < 16 := Nat.lt_of_not_le h3
        cases hl : lookupTerm i.lexicon t with
        | some tid =>
          dsimp only
          by_cases h4 : i.maxHits ≤ i.hits.length
          · rw [if_pos h4]
            exact Or.inl ⟨fun hc => St.noConfusion hc, rfl⟩
          · rw [if_neg h4]
            exact Or.inr (Or.inr (Or.inl ⟨hsec, tid, rfl, rfl⟩))
        | none =>
          dsimp only
          by_cases h5 : i.maxTerms ≤ i.lexicon.length
          · rw [if_pos h5]
            exact Or.inl ⟨fun hc => St.noConfusion hc, rfl⟩
          · rw [if_neg h5]
            by_cases h6 : i.maxHits ≤ i.hits.length
            · rw [if_pos h6]
              exact Or.inl ⟨fun hc => St.noConfusion hc, rfl⟩
            · rw [if_neg h6]
              exact Or.inr (Or.inr (Or.inr ⟨hsec, rfl, rfl⟩))

theorem addHit_resourceExhausted_frame (i : LiteIndex) (e : Editor)
    (t : Term) (hre : (AddHit i e t).1 = St.resourceExhausted) :
    (AddHit i e t).2.1 = i := by
  rcases addHit_spec i e t with ⟨_, heq⟩ | ⟨_, heq⟩ |
    ⟨_, _, _, heq⟩ | ⟨_, _, heq⟩
  · rw [heq]
  · rw [heq]
  · rw [heq] at hre
    exact absurd hre (fun hc => St.noConfusion hc)
  · rw [heq] at hre
    exact absurd hre (fun hc => St.noConfusion hc)

theorem getElem?_append_left_of_some {lex : List Term} {k : Nat} {u t : Term}
    (hu : lex[k]? = some u) : (lex ++ [t])[k]? = some u := by
  have hk : k < lex.length := by
    by_contra hc
    rw [List.getElem?_eq_none (Nat.le_of_not_lt hc)] at hu
    cases hu
  rw [List.getElem?_append, if_pos hk]
  exact hu

theorem addHit_mono_hasTermHit (i : LiteIndex) (e : Editor) (t u : Term)
    (hu : hasTermHit i u) : hasTermHit (AddHit i e t).2.1 u := by
  obtain ⟨h, hh, hlex⟩ := hu
  rcases addHit_spec i e t with ⟨_, heq⟩ | ⟨_, heq⟩ |
    ⟨_, tid, _, heq⟩ | ⟨_, _, heq⟩
  · rw [heq]
    exact ⟨h, hh, hlex⟩
  · rw [heq]
    exact ⟨h, hh, hlex⟩
  · rw [heq]
    exact ⟨h, List.mem_append_left _ hh, hlex⟩
  · rw [heq]
    exact ⟨h, List.mem_append_left _ hh, getElem?_append_left_of_some hlex⟩

theorem addHit_preserves_sectionsOk (i : LiteIndex) (e : Editor) (t : Term)
    (hs : SectionsOk i) : SectionsOk (AddHit i e t).2.1 := by
  rcases addHit_spec i e t with ⟨_, heq⟩ | ⟨_, heq⟩ |
    ⟨hsec, tid, _, heq⟩ | ⟨hsec, _, heq⟩
  · rw [heq]
    exact hs
  · rw [heq]
    exact hs
  · rw [heq]
    intro h hh
    rcases List.mem_append.mp hh with hh | hh
    · exact hs h hh
    · rw [List.mem_singleton] at hh
      subst hh
      exact hsec
  · rw [heq]
    intro h hh
    rcases List.mem_append.mp hh with hh | hh
    · exact hs h hh
    · rw [List.mem_singleton] at hh
      subst hh
      exact hsec

theorem addHit_ok_hasTermHit (i : LiteIndex) (e : Editor) (t : Term)
    (hseen : EditorSeenOk i e) (hok : (AddHit i e t).1 = St.ok) :
    hasTermHit (AddHit i e t).2.1 t := by
  rcases addHit_spec i e t with ⟨hne, _⟩ | ⟨hmem, heq⟩ |
    ⟨_, tid, hl, heq⟩ | ⟨_, _, heq⟩
  · exact absurd hok hne
  · rw [heq]
    exact hseen t hmem
  · rw [heq]
    refine ⟨⟨tid, e.document_id, e.section_id, e.match_type == .pfx⟩,
      List.mem_append_right _ (List.mem_singleton.mpr rfl), ?_⟩
    exact lookupTerm_some i.lexicon t tid hl
  · rw [heq]
    refine ⟨⟨i.lexicon.length, e.document_id, e.section_id,
      e.match_type == .pfx⟩,
      List.mem_append_right _ (List.mem_singleton.mpr rfl), ?_⟩
    exact List.getElem?_concat_length i.lexicon t

theorem addHit_preserves_editorSeenOk (i : LiteIndex) (e : Editor) (t : Term)
    (hseen : EditorSeenOk i e) :
    EditorSeenOk (AddHit i e t).2.1 (AddHit i e t).2.2 := by
  rcases hspec : addHit_spec i e t with ⟨_, heq⟩ | ⟨_, heq⟩ |
    ⟨hsec, tid, hl, heq⟩ | ⟨hsec, hl, heq⟩
  · rw [heq]
    exact hseen
  · rw [heq]
    exact hseen
  · intro u hu
    rw [heq] at hu ⊢
    rcases List.mem_cons.mp hu with hu | hu
    · subst hu
      have := addHit_ok_hasTermHit i e u hseen (by rw [heq])
      rwa [heq] at this
    · have := addHit_mono_hasTermHit i e t u (hseen u hu)
      rwa [heq] at this
  · intro u hu
    rw [heq] at hu ⊢
    rcases List.mem_cons.mp hu with hu | hu
    · subst hu
      have := addHit_ok_hasTermHit i e u hseen (by rw [heq])
      rwa [heq] at this
    · have := addHit_mono_hasTermHit i e t u (hseen u hu)
      rwa [heq] at this

/-- Run one editor over a term list, returning the final index and the terms
whose `AddHit` returned ok. -/
def runSessionGo : LiteIndex → Editor → List Term → LiteIndex × List Term
  | i, _, [] => (i, [])
  | i, e, t :: ts =>
    ((runSessionGo (AddHit i e t).2.1 (AddHit i e t).2.2 ts).1,
      if (AddHit i e t).1 = St.ok then
        t :: (runSessionGo (AddHit i e t).2.1 (AddHit i e t).2.2 ts).2
      else (runSessionGo (AddHit i e t).2.1 (AddHit i e t).2.2 ts).2)

/-- Run a list of editor sessions `(document, section, match_type, terms)`,
returning the final index and all terms whose `AddHit` returned ok. -/
def runScriptGo :
    LiteIndex → List (Nat × Nat × TermMatchType × List Term) →
      LiteIndex × List Term
  | i, [] => (i, [])
  | i, (d, sec, mt, ts) :: rest =>
    ((runScriptGo (runSessionGo i (Edit i d sec mt) ts).1 rest).1,
      (runSessionGo i (Edit i d sec mt) ts).2 ++
        (runScriptGo (runSessionGo i (Edit i d sec mt) ts).1 rest).2)

theorem runSessionGo_spec (ts : List Term) (i : LiteIndex) (e : Editor)
    (hsec : SectionsOk i) (hseen : EditorSeenOk i e) :
    SectionsOk (runSessionGo i e ts).1 ∧
    (∀ u, hasTermHit i u → hasTermHit (runSessionGo i e ts).1 u) ∧
    (∀ t ∈ (runSessionGo i e ts).2,
      hasTermHit (runSessionGo i e ts).1 t) := by
  induction ts generalizing i e with
  | nil =>
    exact ⟨hsec, fun _ hu => hu, fun t ht => absurd ht (List.not_mem_nil t)⟩
  | cons t ts ih =>
    obtain ⟨hsecF, hmonoF, hmemF⟩ :=
      ih (AddHit i e t).2.1 (AddHit i e t).2.2
        (addHit_preserves_sectionsOk i e t hsec)
        (addHit_preserves_editorSeenOk i e t hseen)
    refine ⟨hsecF, ?_, ?_⟩
    · intro u hu
      exact hmonoF u (addHit_mono_hasTermHit i e t u hu)
    · intro u hu
      show hasTermHit (runSessionGo (AddHit i e t).2.1 (AddHit i e t).2.2 ts).1 u
      have hu2 : u ∈
          (if (AddHit i e t).1 = St.ok then
            t :: (runSessionGo (AddHit i e t).2.1 (AddHit i e t).2.2 ts).2
          else (runSessionGo (AddHit i e t).2.1 (AddHit i e t).2.2 ts).2) := hu
      by_cases hok : (AddHit i e t).1 = St.ok
      · rw [if_pos hok] at hu2
        rcases List.mem_cons.mp hu2 with hu2 | hu2
        · subst hu2
          exact hmonoF u (addHit_ok_hasTermHit i e u hseen hok)
        · exact hmemF u hu2
      · rw [if_neg hok] at hu2
        exact hmemF u hu2

theorem runScriptGo_spec
    (script : List (Nat × Nat × TermMatchType × List Term)) (i : LiteIndex)
    (hsec : SectionsOk i) :
    SectionsOk (runScriptGo i script).1 ∧
    (∀ u, hasTermHit i u → hasTermHit (runScriptGo i script).1 u) ∧
    (∀ t ∈ (runScriptGo i script).2,
      hasTermHit (runScriptGo i script).1 t) := by
  induction script generalizing i with
  | nil =>
    exact ⟨hsec, fun _ hu => hu, fun t ht => absurd ht (List.not_mem_nil t)⟩
  | cons step rest ih =>
    obtain ⟨d, sec, mt, ts⟩ := step
    obtain ⟨hsecM, hmonoM, hmemM⟩ :=
      runSessionGo_spec ts i (Edit i d sec mt) hsec
        (fun t ht => absurd ht (List.not_mem_nil t))
    obtain ⟨hsecF, hmonoF, hmemF⟩ :=
      ih (runSessionGo i (Edit i d sec mt) ts).1 hsecM
    refine ⟨hsecF, ?_, ?_⟩
    · intro u hu
      exact hmonoF u (hmonoM u hu)
    · intro u hu
      have hu2 : u ∈ (runSessionGo i (Edit i d sec mt) ts).2 ++
          (runScriptGo (runSessionGo i (Edit i d sec mt) ts).1 rest).2 := hu
      show hasTermHit
        (runScriptGo (runSessionGo i (Edit i d sec mt) ts).1 rest).1 u
      rcases List.mem_append.mp hu2 with hu2 | hu2
      · exact hmonoF u (hmemM u hu2)
      · exact hmemF u hu2

theorem hitBit_land_all_ne_zero (h : TermHit) (hsec : h.sectionId < 16) :
    Nat.land (hitBit h) kSectionIdMaskAll ≠ 0 := by
  intro hc
  have hbit : (Nat.land (hitBit h) kSectionIdMaskAll).testBit h.sectionId =
      true := by
    rw [show Nat.land (hitBit h) kSectionIdMaskAll =
      hitBit h &&& kSectionIdMaskAll from rfl, Nat.testBit_land]
    have h1 : (hitBit h).testBit h.sectionId = true := by
      rw [hitBit, Nat.shiftLeft_eq, one_mul]
      exact Nat.testBit_two_pow_self
    have h2 : kSectionIdMaskAll.testBit h.sectionId = true := by
      rw [show kSectionIdMaskAll = 2 ^ 16 - 1 from by
          norm_num [kSectionIdMaskAll],
        Nat.testBit_two_pow_sub_one]
      exact decide_eq_true hsec
    rw [h1, h2]
    rfl
  rw [hc, Nat.zero_testBit] at hbit
  cases hbit

theorem hasTermHit_query_nonempty (i : LiteIndex) (t : Term)
    (hsec : SectionsOk i) (ht : hasTermHit i t) :
    GetIteratorHits i t kSectionIdMaskAll .exactOnly ≠ [] := by
  obtain ⟨h, hh, hlex⟩ := ht
  have hmem : (h.docId : Int) ∈
      (GetIteratorHits i t kSectionIdMaskAll .exactOnly).map
        DocHitInfo.document_id :=
    (mem_getIteratorHits_docs i t kSectionIdMaskAll .exactOnly h.docId).mpr
      ⟨h, hh, (hitQualifies_exact_iff i t h).mpr hlex, rfl,
        hitBit_land_all_ne_zero h (hsec h hh)⟩
  intro hnil
  rw [hnil] at hmem
  cases hmem

/-- C6: an `AddHit` that fails with `RESOURCE_EXHAUSTED` (lexicon or hit
buffer full) leaves the index — in particular `last_added_document_id` —
unchanged, and after any sequence of editor sessions every term whose
`AddHit` returned ok still yields at least one hit from a subsequent exact
query on the same index. -/
theorem addHit_capacity_semantics :
    (∀ (i : LiteIndex) (e : Editor) (t : Term),
      (AddHit i e t).1 = St.resourceExhausted → (AddHit i e t).2.1 = i) ∧
    (∀ (i : LiteIndex)
        (script : List (Nat × Nat × TermMatchType × List Term)),
      SectionsOk i →
      ∀ t ∈ (runScriptGo i script).2,
        GetIteratorHits (runScriptGo i script).1 t kSectionIdMaskAll
          .exactOnly ≠ []) := by
  constructor
  · exact addHit_resourceExhausted_frame
  · intro i script hsec t ht
    obtain ⟨hsecF, _, hmemF⟩ := runScriptGo_spec script i hsec
    exact hasTermHit_query_nonempty _ _ hsecF (hmemF t ht)

/-- A zero-capacity index: any first `AddHit` is `RESOURCE_EXHAUSTED`. -/
def zeroCapacityIndex : LiteIndex := ⟨[], [], -1, 0, 0⟩

/-- C6 witness: the capacity semantics realized on a zero-capacity index and
on a one-session script over `sampleIndex`. -/
theorem addHit_capacity_semantics_witness :
    (AddHit zeroCapacityIndex (Edit zeroCapacityIndex 0 2 .exactOnly)
      [98]).1 = St.resourceExhausted ∧
    (AddHit zeroCapacityIndex (Edit zeroCapacityIndex 0 2 .exactOnly)
      [98]).2.1 = zeroCapacityIndex ∧
    SectionsOk sampleIndex ∧
    [98, 97, 114] ∈
      (runScriptGo sampleIndex [(1, 3, .exactOnly, [[98, 97, 114]])]).2 ∧
    GetIteratorHits
      (runScriptGo sampleIndex [(1, 3, .exactOnly, [[98, 97, 114]])]).1
      [98, 97, 114] kSectionIdMaskAll .exactOnly ≠ [] :=
  ⟨by decide,
    addHit_capacity_semantics.1 zeroCapacityIndex
      (Edit zeroCapacityIndex 0 2 .exactOnly) [98] (by decide),
    by decide,
    by decide,
    addHit_capacity_semantics.2 sampleIndex
      [(1, 3, .exactOnly, [[98, 97, 114]])] (by decide) [98, 97, 114]
      (by decide)⟩

end LiteIndex

end Icing
